import Mathlib

/-!
Verification of the mobile-node peer: a shallow embedding of the
LWW sync store, the chunked sync protocol, the crypto helpers, the
peer registry and the bootstrap-backoff policy, with theorems about
the documented behaviour of each component.

Modelling conventions:
* Rust `String` is Lean `String`; where character-level reasoning is
  needed we work through `String.data` (a `List Char`).
* `i64` timestamps are Lean `Int`; `u32` / `u64` machine arithmetic is
  `Nat` with explicit saturation / wrap-around (`% 2 ^ 64`) where the
  source can overflow.
* The Ed25519 primitive is external to the repository, so signature
  checking is abstracted as an oracle argument
  `sv : public_key_hex → message → signature_hex → Except String Bool`,
  mirroring `crypto::verify_signature`.
* Wall-clock reads (`Utc::now`, `Instant::now`, `SystemTime::now`)
  become an explicit `now` argument.
* The sled-backed `Storage` is a pure map `db_name → key → value`;
  its I/O errors are environmental and out of scope.
-/

namespace MobileNode

/-- A signed data operation, from `sync.rs` (`struct SignedOperation`).
The optional numeric payload fields of the source (`score`, `json_path`,
`stream_fields`, `ts_timestamp`, `longitude`, `latitude`) are read by
none of the functions modelled here and are omitted. -/
structure SignedOperation where
  op_id : String
  timestamp : Int
  db_name : String
  key : String
  value : String
  store_type : String
  field : Option String
  public_key : String
  signature : String
deriving DecidableEq, Repr

/-- CRDT ordering key, from `SignedOperation::crdt_key`. -/
def SignedOperation.crdt_key (op : SignedOperation) : String :=
  match op.field with
  | some f => op.db_name ++ ":" ++ op.key ++ ":" ++ f
  | none => op.db_name ++ ":" ++ op.key

/-- The full-format signing message `op_id:timestamp:db_name:key:value`
built in `SignedOperation::verify`. -/
def SignedOperation.full_message (op : SignedOperation) : String :=
  op.op_id ++ ":" ++ toString op.timestamp ++ ":" ++ op.db_name ++ ":" ++
    op.key ++ ":" ++ op.value

/-- The short-format signing message `db_name:key:value` built in
`SignedOperation::verify`. -/
def SignedOperation.short_message (op : SignedOperation) : String :=
  op.db_name ++ ":" ++ op.key ++ ":" ++ op.value

/-- Type of the external Ed25519 verification oracle, standing for
`crypto::verify_signature (public_key_hex, message, signature_hex)`. -/
abbrev SigVerifier := String → String → String → Except String Bool

/-- Signature verification dispatch, from `SignedOperation::verify`.
The db-name check and the timestamp check at the top of the source
function only log on failure and never change the result, so they do
not appear. The full format is tried first with errors collapsed to
`false` (`unwrap_or(false)`); on failure the short format is tried and
its result (including errors) is returned as-is. -/
def SignedOperation.verify (sv : SigVerifier) (op : SignedOperation) :
    Except String Bool :=
  match sv op.public_key op.full_message op.signature with
  | .ok true => .ok true
  | _ => sv op.public_key op.short_message op.signature

/-- The in-memory LWW map of `SyncStore`: `crdt_key → (timestamp, op)`. -/
abbrev LWWMap := String → Option (Int × SignedOperation)

/-- The empty LWW map of a fresh `SyncStore`. -/
def emptyLWW : LWWMap := fun _ => none

/-- LWW merge without signature verification, from
`SyncStore::add_operation_unverified`. Returns the accept flag together
with the updated map. -/
def add_operation_unverified (ops : LWWMap) (op : SignedOperation) :
    Bool × LWWMap :=
  let k := op.crdt_key
  match ops k with
  | some (existing_ts, existing_op) =>
    if op.timestamp < existing_ts then (false, ops)
    else if op.timestamp = existing_ts ∧ op.op_id.data ≤ existing_op.op_id.data then
      (false, ops)
    else (true, fun k2 => if k2 = k then some (op.timestamp, op) else ops k2)
  | none => (true, fun k2 => if k2 = k then some (op.timestamp, op) else ops k2)

/-- LWW merge with signature verification, from
`SyncStore::add_operation`: reject unless `verify` returns `Ok(true)`
(`unwrap_or(false)` collapses errors), then apply the identical LWW
rule of `add_operation_unverified`. -/
def add_operation (sv : SigVerifier) (ops : LWWMap) (op : SignedOperation) :
    Bool × LWWMap :=
  match op.verify sv with
  | .ok true => add_operation_unverified ops op
  | _ => (false, ops)

/-- Folding a batch of operations into the map, the state part of
`SyncStore::merge_operations` restricted to the unverified merge rule. -/
def merge_all (ops : LWWMap) (l : List SignedOperation) : LWWMap :=
  l.foldl (fun m o => (add_operation_unverified m o).2) ops

/-- Non-strict lexicographic order on `(timestamp, op_id)` used by the
LWW rule and by the sync-response sort comparator. -/
def opLe (a b : SignedOperation) : Prop :=
  a.timestamp < b.timestamp ∨ (a.timestamp = b.timestamp ∧ a.op_id.data ≤ b.op_id.data)

instance : DecidableRel opLe := fun a b =>
  inferInstanceAs (Decidable (_ ∨ _))

instance : IsTotal SignedOperation opLe where
  total a b := by
    rcases lt_trichotomy a.timestamp b.timestamp with h | h | h
    · exact Or.inl (Or.inl h)
    · rcases le_total a.op_id.data b.op_id.data with h2 | h2
      · exact Or.inl (Or.inr ⟨h, h2⟩)
      · exact Or.inr (Or.inr ⟨h.symm, h2⟩)
    · exact Or.inr (Or.inl h)

instance : IsTrans SignedOperation opLe where
  trans a b c hab hbc := by
    rcases hab with h1 | ⟨e1, le1⟩
    · rcases hbc with h2 | ⟨e2, _⟩
      · exact Or.inl (h1.trans h2)
      · exact Or.inl (e2 ▸ h1)
    · rcases hbc with h2 | ⟨e2, le2⟩
      · exact Or.inl (e1 ▸ h2)
      · exact Or.inr ⟨e1.trans e2, le1.trans le2⟩

/-- One LWW register: the entry of the map at a single CRDT key, as
updated by `add_operation_unverified` for an operation with that key. -/
def regStep (r : Option (Int × SignedOperation)) (o : SignedOperation) :
    Option (Int × SignedOperation) :=
  match r with
  | none => some (o.timestamp, o)
  | some (ts, e) =>
    if o.timestamp < ts then some (ts, e)
    else if o.timestamp = ts ∧ o.op_id.data ≤ e.op_id.data then some (ts, e)
    else some (o.timestamp, o)

instance {e a : Type} [DecidableEq e] [DecidableEq a] :
    DecidableEq (Except e a) := fun x y =>
  match x, y with
  | .ok v, .ok w =>
    if h : v = w then .isTrue (by rw [h])
    else .isFalse (by intro hh; cases hh; exact h rfl)
  | .ok _, .error _ => .isFalse (by intro hh; cases hh)
  | .error _, .ok _ => .isFalse (by intro hh; cases hh)
  | .error v, .error w =>
    if h : v = w then .isTrue (by rw [h])
    else .isFalse (by intro hh; cases hh; exact h rfl)

/-- Sample operations used by the concrete witnesses. -/
def demoOp : SignedOperation :=
  { op_id := "a", timestamp := 1, db_name := "db", key := "k", value := "v",
    store_type := "string", field := none, public_key := "", signature := "" }

def demoOp2 : SignedOperation :=
  { demoOp with op_id := "b", value := "w" }

/-- An oracle that rejects every signature, for the C2 witness. -/
def rejectAllSig : SigVerifier := fun _ _ _ => .ok false

/-- Decimal digit character, used to model the std integer formatter. -/
def dec_char (d : Nat) : Char := Char.ofNat (48 + d)

/-- Fuel-driven digit accumulator for decimal printing (the fuel is
always sufficient, see `nat_decimal`). -/
def nat_decimal_aux : Nat → Nat → List Char → List Char
  | 0, _, acc => acc
  | fuel + 1, n, acc =>
    let acc2 := dec_char (n % 10) :: acc
    if n < 10 then acc2 else nat_decimal_aux fuel (n / 10) acc2

/-- Decimal digits of a natural number, most significant first: the
model of the std formatter for unsigned integers. -/
def nat_decimal (n : Nat) : List Char := nat_decimal_aux (n + 1) n []

/-- Decimal printing of an `i64`, the model of `format!` on a signed
integer as used for the continuation token. -/
def int_decimal (i : Int) : List Char :=
  if i < 0 then '-' :: nat_decimal i.natAbs else nat_decimal i.toNat

def int_decimal_str (i : Int) : String := String.mk (int_decimal i)

/-- Value of a decimal digit character, if it is one. -/
def dec_digit? (c : Char) : Option Nat :=
  if 48 ≤ c.toNat ∧ c.toNat ≤ 57 then some (c.toNat - 48) else none

/-- One step of decimal parsing. -/
def dec_step (acc : Option Nat) (c : Char) : Option Nat :=
  match acc, dec_digit? c with
  | some a, some d => some (a * 10 + d)
  | _, _ => none

/-- Decimal parse of an unsigned number: empty or non-digit input
fails. -/
def decimal_to_nat? (l : List Char) : Option Nat :=
  match l with
  | [] => none
  | _ => l.foldl dec_step (some 0)

/-- Model of `str::parse::<i64>` as used on continuation tokens. The
source parser also accepts a leading plus sign and enforces the i64
range; neither case is reachable from tokens this node emits, which
are printed from in-range values without a plus sign. -/
def int_parse? (l : List Char) : Option Int :=
  match l with
  | [] => none
  | c :: rest =>
    if c = '-' then (decimal_to_nat? rest).map (fun n => -(n : Int))
    else (decimal_to_nat? (c :: rest)).map (fun n => (n : Int))

/-- Continuation-token parsing from the `SyncResponse` arm of
`SyncManager::handle_sync_message`: strip the literal prefix `ts:`
and parse the remainder as an i64. -/
def parse_ts_token (tok : String) : Option Int :=
  match tok.data with
  | 't' :: 's' :: ':' :: rest => int_parse? rest
  | _ => none

/-- Maximum operations per sync response, from `MAX_OPS_PER_RESPONSE`. -/
def MAX_OPS_PER_RESPONSE : Nat := 128

/-- Payload of a `SyncMessage::SyncResponse`. -/
structure SyncResponseData where
  operations : List SignedOperation
  has_more : Bool
  continuation_token : Option String

/-- The filter of `SyncStore::get_operations_since`: keep operations
whose stored timestamp is at least the given one. -/
def get_operations_since (stored : List SignedOperation) (ts : Int) :
    List SignedOperation :=
  stored.filter (fun o => decide (ts ≤ o.timestamp))

/-- Response construction of the `SyncRequest` arm of
`SyncManager::handle_sync_message`, applied to the collected
operations: sort by `(timestamp, op_id)`, take a prefix of up to 128
operations, set `has_more`, and derive the `ts:` continuation token
from the last operation of the chunk. -/
def respond (operations : List SignedOperation) : SyncResponseData :=
  let sorted := List.insertionSort opLe operations
  let total := sorted.length
  let chunk := sorted.take MAX_OPS_PER_RESPONSE
  let has_more : Bool := decide (chunk.length < total)
  let continuation_token :=
    if has_more then
      some ("ts:" ++ int_decimal_str
        (((chunk.getLast?).map (fun op => op.timestamp)).getD 0))
    else none
  ⟨chunk, has_more, continuation_token⟩

/-- The `SyncRequest` arm of `SyncManager::handle_sync_message`:
collect all operations, or those since the given timestamp, and build
the chunked response. -/
def handle_sync_request (stored : List SignedOperation)
    (since_timestamp : Option Int) : SyncResponseData :=
  match since_timestamp with
  | some ts => respond (get_operations_since stored ts)
  | none => respond stored

/-- The operations a sync request considers, as named by the spec. -/
def sync_considered (stored : List SignedOperation) :
    Option Int → List SignedOperation
  | none => stored
  | some ts => get_operations_since stored ts

/-- The client side of the chunked catch-up loop: starting from a
given `since_timestamp`, repeatedly issue the request, and on a
response with `has_more` and a parseable `ts:` token follow up with
that timestamp. Returns whether a response with `has_more = false` is
reached within the given number of rounds. -/
def sync_rounds_done (stored : List SignedOperation) :
    Option Int → Nat → Bool
  | _, 0 => false
  | since, k + 1 =>
    let r := handle_sync_request stored since
    if r.has_more then
      match r.continuation_token with
      | some tok =>
        match parse_ts_token tok with
        | some n => sync_rounds_done stored (some n) k
        | none => false
      | none => false
    else true

/-- An operation for the C4 counterexample store: 129 operations that
all carry the same timestamp (distinct op_ids). -/
def c4_op (i : Nat) : SignedOperation :=
  { op_id := String.mk (nat_decimal (100 + i)), timestamp := 0, db_name := "d",
    key := "k", value := "v", store_type := "string", field := none,
    public_key := "", signature := "" }

/-- A server store with 129 operations sharing one timestamp. -/
def c4_store : List SignedOperation := (List.range 129).map c4_op


/-- Hex digit test used by the hex codec (both letter cases, as in
the hex crate). -/
def is_hex_digit (c : Char) : Bool :=
  decide ((48 ≤ c.toNat ∧ c.toNat ≤ 57) ∨ (97 ≤ c.toNat ∧ c.toNat ≤ 102) ∨
    (65 ≤ c.toNat ∧ c.toNat ≤ 70))

/-- Numeric value of a hex digit. -/
def hex_val (c : Char) : Nat :=
  if c.toNat ≤ 57 then c.toNat - 48
  else if c.toNat ≤ 70 then c.toNat - 55
  else c.toNat - 87

/-- Byte values of an even-length hex string. -/
def hex_pairs : List Char → List Nat
  | [] => []
  | a :: b :: rest => (hex_val a * 16 + hex_val b) :: hex_pairs rest
  | [_] => []

/-- Strict hex decoding, from `crypto::secure_hex_decode`: the empty
string decodes to no bytes, odd length and non-hex characters are
errors. -/
def secure_hex_decode (s : String) : Option (List Nat) :=
  if s.data.isEmpty then some []
  else if s.data.length % 2 ≠ 0 then none
  else if s.data.all is_hex_digit then some (hex_pairs s.data) else none

/-- Ed25519 public key byte length, from `ED25519_PUBLIC_KEY_LENGTH`. -/
def ED25519_PUBLIC_KEY_LENGTH : Nat := 32

/-- Database name construction, from `crypto::generate_db_name`. -/
def generate_db_name (name public_key_hex : String) : String :=
  name ++ "-" ++ public_key_hex

/-- Name part before the last dash, from
`crypto::extract_name_from_db` (`rfind` + slice to that position). -/
def extract_name_from_db (db_name : String) : Option String :=
  if '-' ∈ db_name.data then
    some (String.mk
      ((((db_name.data.reverse).dropWhile (fun c => c ≠ '-')).tail).reverse))
  else none

/-- Unicode control character test, modelling `char::is_control`. -/
def is_control_char (c : Char) : Bool :=
  decide (c.toNat < 32 ∨ (127 ≤ c.toNat ∧ c.toNat ≤ 159))

/-- Database-name binding check, from `crypto::verify_db_name_secure`:
non-empty inputs, public key exactly 64 hex characters, db name ends
with `-{public_key_hex}`, and the name part before the last dash is
non-empty and free of control characters. -/
def verify_db_name_secure (db_name public_key_hex : String) : Bool :=
  if db_name.data.isEmpty ∨ public_key_hex.data.isEmpty then false
  else if public_key_hex.data.length ≠ ED25519_PUBLIC_KEY_LENGTH * 2 then false
  else if (secure_hex_decode public_key_hex).isNone then false
  else if ¬ (("-" ++ public_key_hex).data.isSuffixOf db_name.data) then false
  else
    match extract_name_from_db db_name with
    | none => false
    | some name_part =>
      if name_part.data.isEmpty ∨ name_part.data.any is_control_char then false
      else true

/-- Timestamp validation errors, from `crypto.rs`
(`TIMESTAMP_TOO_OLD` / `TIMESTAMP_TOO_FUTURE`). -/
inductive TimestampError where
  | tooOld
  | tooFuture
deriving DecidableEq, Repr

/-- Default timestamp tolerance in seconds (`MIN_TIMESTAMP_TOLERANCE`). -/
def MIN_TIMESTAMP_TOLERANCE : Nat := 300

/-- The constant `MAX_TIMESTAMP_TOLERANCE` of the source (1 hour); it
is only ever passed as an argument and never enforced as a cap. -/
def MAX_TIMESTAMP_TOLERANCE : Nat := 3600

/-- Reinterpretation of a u64 product as i64, modelling
`(tolerance * 1000) as i64` with u64 wrap-around. -/
def u64_as_i64 (n : Nat) : Int :=
  let m : Nat := n % 2 ^ 64
  if m < 2 ^ 63 then (m : Int) else (m : Int) - 2 ^ 64

/-- Timestamp window check, from `crypto::validate_timestamp`. The
current time (`SystemTime::now` in milliseconds) is the explicit `now`
argument; the system-time error branch is unreachable in this model. -/
def validate_timestamp (timestamp : Int) (tolerance_seconds : Option Nat)
    (now : Int) : Except TimestampError Unit :=
  let tolerance := tolerance_seconds.getD MIN_TIMESTAMP_TOLERANCE
  let tolerance_ms := u64_as_i64 (tolerance * 1000)
  if timestamp < now - tolerance_ms then .error .tooOld
  else if timestamp > now + tolerance_ms then .error .tooFuture
  else .ok ()

/-- A valid 64-hex-character public key for the witnesses. -/
def demoPk : String := String.mk (List.replicate 64 'a')

/-- Backoff map of `NetworkResilience`: peer id (EndpointId rendered
as a string) to `(failure_count, next_allowed_time)`. Times are in
seconds (`chrono` with `Duration::seconds` granularity). -/
abbrev PeerBackoff := String → Option (Nat × Int)

/-- Model of `u64::checked_shl`: none when the shift amount is 64 or
more, else the shifted value with bits above 2^64 discarded. -/
def u64_checked_shl (x n : Nat) : Option Nat :=
  if n ≥ 64 then none else some ((x <<< n) % 2 ^ 64)

/-- The new failure count on a connect failure, from the failure arm
of `start_bootstrap_reconnects`: a u32 saturating increment of the
existing count, or 1 for a first failure. -/
def next_failures (pb : PeerBackoff) (peer : String) : Nat :=
  match pb peer with
  | some e => min (e.1 + 1) (2 ^ 32 - 1)
  | none => 1

/-- Failure arm of the bootstrap reconnect loop in
`NetworkResilience::start_bootstrap_reconnects`: back off for
`min(checked_shl(2, failures − 1) or 300, 300)` seconds and record
`(failures, now + backoff)` for the peer. -/
def on_connect_failure (pb : PeerBackoff) (peer : String) (now : Int) :
    PeerBackoff :=
  let failures := next_failures pb peer
  let base_secs : Nat := 2
  let max_secs : Nat := 300
  let backoff_secs :=
    min ((u64_checked_shl base_secs (failures - 1)).getD max_secs) max_secs
  let next_allowed := now + (backoff_secs : Int)
  fun p => if p = peer then some (failures, next_allowed) else pb p

/-- Success arm of the reconnect loop: drop the peer's backoff entry. -/
def on_connect_success (pb : PeerBackoff) (peer : String) : PeerBackoff :=
  fun p => if p = peer then none else pb p

/-- Node capability flags, from `discovery.rs`. -/
structure NodeCapabilities where
  mqtt : Bool
  streams : Bool
  timeseries : Bool
  geo : Bool
  blobs : Bool
  mobile : Bool
deriving DecidableEq, Repr

/-- Model of `NodeCapabilities::mobile_node`: the capability profile a mobile
node announces. -/
def NodeCapabilities.mobile_node : NodeCapabilities :=
  { mqtt := false, streams := false, timeseries := false,
    geo := false, blobs := true, mobile := true }

/-- A peer discovered through gossip, from `discovery.rs`. `Instant`
values are modelled as milliseconds on an `Int` clock. -/
structure DiscoveredPeer where
  node_id : String
  public_key : String
  address : Option String
  capabilities : NodeCapabilities
  region : Option String
  version : Option String
  last_seen : Option Int
  latency_ms : Option Nat
deriving DecidableEq, Repr

/-- Peer expiry window in seconds, from `PEER_EXPIRY_SECS`. -/
def PEER_EXPIRY_SECS : Nat := 300

/-- Model of `DiscoveredPeer::is_expired`: expired when never seen, or when
last seen more than 300 s before `now`. `Instant::elapsed` is `now − t`
(non-negative in the source since `t` was sampled earlier). -/
def DiscoveredPeer.is_expired (p : DiscoveredPeer) (now : Int) : Bool :=
  match p.last_seen with
  | some t => decide (now - t > (PEER_EXPIRY_SECS : Int) * 1000)
  | none => true

/-- A signed peer announcement, from `discovery.rs`. -/
structure PeerAnnouncement where
  id : String
  node_id : String
  public_key : String
  address : Option String
  capabilities : NodeCapabilities
  region : Option String
  version : Option String
  timestamp : Int
  signature : String
deriving DecidableEq, Repr

/-- Model of `PeerAnnouncement::signing_message`:
`id:node_id:timestamp:address-or-empty`. -/
def PeerAnnouncement.signing_message (a : PeerAnnouncement) : String :=
  a.id ++ ":" ++ a.node_id ++ ":" ++ toString a.timestamp ++ ":" ++
    (a.address.getD "")

/-- Model of `PeerAnnouncement::verify`: an empty signature never verifies;
otherwise defer to the Ed25519 oracle on the signing message. -/
def PeerAnnouncement.verify (sv : SigVerifier) (a : PeerAnnouncement) :
    Except String Bool :=
  if a.signature = "" then .ok false
  else sv a.public_key a.signing_message a.signature

/-- Model of `PeerAnnouncement::to_discovered_peer`: freshly-seen peer record. -/
def PeerAnnouncement.to_discovered_peer (a : PeerAnnouncement) (now : Int) :
    DiscoveredPeer :=
  { node_id := a.node_id, public_key := a.public_key, address := a.address,
    capabilities := a.capabilities, region := a.region, version := a.version,
    last_seen := some now, latency_ms := none }

/-- Registry state of `PeerRegistry`. -/
structure PeerRegistry where
  peers : String → Option DiscoveredPeer
  local_node_id : String
  announcement_cache : String → Option Int

/-- Model of `PeerRegistry::process_announcement`: reject own announcements,
announcements whose id is cached with an equal-or-newer timestamp, and
announcements whose signature does not verify; otherwise cache the
timestamp, upsert the peer with a fresh `last_seen`, and report
whether the peer is new. -/
def process_announcement (sv : SigVerifier) (reg : PeerRegistry)
    (a : PeerAnnouncement) (now : Int) : Bool × PeerRegistry :=
  if a.node_id = reg.local_node_id then (false, reg)
  else if (match reg.announcement_cache a.id with
           | some cached_ts => decide (cached_ts ≥ a.timestamp)
           | none => false) then (false, reg)
  else
    match a.verify sv with
    | .ok true =>
      let peer := a.to_discovered_peer now
      let is_new := (reg.peers peer.node_id).isNone
      (is_new,
        { reg with
          announcement_cache := fun i =>
            if i = a.id then some a.timestamp else reg.announcement_cache i,
          peers := fun nid =>
            if nid = peer.node_id then some peer else reg.peers nid })
    | _ => (false, reg)

/-- Model of `PeerRegistry::cleanup_expired`: drop expired peers and trim
announcement-cache entries at least `PEER_EXPIRY_SECS` old. The source
reads the monotonic clock for peers and the wall clock for the cache;
both are the single `now` (ms) here. The removed-count bookkeeping is
not modelled. -/
def cleanup_expired (reg : PeerRegistry) (now : Int) : PeerRegistry :=
  { reg with
    peers := fun id =>
      match reg.peers id with
      | some p => if p.is_expired now then none else some p
      | none => none,
    announcement_cache := fun i =>
      match reg.announcement_cache i with
      | some ts =>
        if decide (ts > now - (PEER_EXPIRY_SECS : Int) * 1000) then some ts
        else none
      | none => none }

/-- Pure view of the sled-backed storage: db name and key to value
bytes (kept as strings); `put` is create-or-overwrite. Substrate I/O
failures are environmental and out of scope. -/
abbrev StorageMap := String → String → Option String

/-- Model of `Storage::put` on the pure view. -/
def storage_put (s : StorageMap) (db_name key value : String) : StorageMap :=
  fun d k => if d = db_name ∧ k = key then some value else s d k

/-- The state `SyncStore::apply_to_storage` touches: storage plus the
applied-op-id set. -/
structure SyncStoreApply where
  storage : StorageMap
  applied_ops : String → Bool

/-- Model of `str::to_lowercase` as a character map (the store-type
strings are ASCII). -/
def to_lowercase (s : String) : String := String.mk (s.data.map Char.toLower)

/-- Model of `SyncStore::apply_to_storage`: skip already-applied operations;
dispatch on the lower-cased store type — `hash` requires `field` and
errors before any write, writing under `key:field`; everything else
writes under `key` — and mark the op applied after the write. -/
def apply_to_storage (st : SyncStoreApply) (op : SignedOperation) :
    Except String Unit × SyncStoreApply :=
  if st.applied_ops op.op_id then (.ok (), st)
  else
    let mark := fun (s : StorageMap) =>
      ((Except.ok () : Except String Unit),
        { storage := s,
          applied_ops := fun i => if i = op.op_id then true
            else st.applied_ops i })
    match to_lowercase op.store_type with
    | "string" => mark (storage_put st.storage op.db_name op.key op.value)
    | "hash" =>
      match op.field with
      | none => (.error "Field required for Hash type", st)
      | some field =>
        mark (storage_put st.storage op.db_name (op.key ++ ":" ++ field)
          op.value)
    | "json" => mark (storage_put st.storage op.db_name op.key op.value)
    | _ => mark (storage_put st.storage op.db_name op.key op.value)

/-- A sample announcement for the C8 witness. -/
def demoAnnouncement : PeerAnnouncement :=
  { id := "ann1", node_id := "remote", public_key := "pk",
    address := none, capabilities := NodeCapabilities.mobile_node,
    region := none, version := none, timestamp := 5, signature := "sig" }

/-- An oracle that accepts every signature, for the C8 witness. -/
def acceptAllSig : SigVerifier := fun _ _ _ => .ok true

/-- An empty registry with local node id `local`, for the witnesses. -/
def demoRegistry : PeerRegistry :=
  { peers := fun _ => none, local_node_id := "loc",
    announcement_cache := fun _ => none }

/-- A hash operation lacking its field, for the C9 witness. -/
def demoHashOp : SignedOperation :=
  { op_id := "h1", timestamp := 1, db_name := "db", key := "k", value := "v",
    store_type := "Hash", field := none, public_key := "", signature := "" }

/-- An empty apply-state for the C9 witness. -/
def emptyApplyState : SyncStoreApply :=
  { storage := fun _ _ => none, applied_ops := fun _ => false }

theorem opLe_refl (a : SignedOperation) : opLe a a :=
  Or.inr ⟨rfl, le_refl _⟩

theorem opLe_trans {a b c : SignedOperation} (h1 : opLe a b) (h2 : opLe b c) :
    opLe a c :=
  IsTrans.trans a b c h1 h2

theorem regStep_none (o : SignedOperation) :
    regStep none o = some (o.timestamp, o) := rfl

theorem regStep_some (ts : Int) (e o : SignedOperation) :
    regStep (some (ts, e)) o =
      if o.timestamp < ts then some (ts, e)
      else if o.timestamp = ts ∧ o.op_id.data ≤ e.op_id.data then some (ts, e)
      else some (o.timestamp, o) := rfl

theorem add_unverified_eq (ops : LWWMap) (op : SignedOperation) :
    add_operation_unverified ops op =
      match ops op.crdt_key with
      | some (existing_ts, existing_op) =>
        if op.timestamp < existing_ts then (false, ops)
        else if op.timestamp = existing_ts ∧ op.op_id.data ≤ existing_op.op_id.data then
          (false, ops)
        else (true, fun k2 => if k2 = op.crdt_key then
          some (op.timestamp, op) else ops k2)
      | none => (true, fun k2 => if k2 = op.crdt_key then
          some (op.timestamp, op) else ops k2) := rfl

theorem add_unverified_of_none (ops : LWWMap) (op : SignedOperation)
    (h : ops op.crdt_key = none) :
    add_operation_unverified ops op =
      (true, fun k2 => if k2 = op.crdt_key then
        some (op.timestamp, op) else ops k2) := by
  rw [add_unverified_eq, h]

theorem add_unverified_of_some (ops : LWWMap) (op : SignedOperation)
    {ts : Int} {e : SignedOperation} (h : ops op.crdt_key = some (ts, e)) :
    add_operation_unverified ops op =
      if op.timestamp < ts then (false, ops)
      else if op.timestamp = ts ∧ op.op_id.data ≤ e.op_id.data then (false, ops)
      else (true, fun k2 => if k2 = op.crdt_key then
        some (op.timestamp, op) else ops k2) := by
  rw [add_unverified_eq, h]

/-- The map update of an accepted operation, at the operation's key and
away from it. -/
theorem add_unverified_snd_at (ops : LWWMap) (op : SignedOperation) :
    (add_operation_unverified ops op).2 op.crdt_key
      = regStep (ops op.crdt_key) op ∧
    ∀ k2, k2 ≠ op.crdt_key →
      (add_operation_unverified ops op).2 k2 = ops k2 := by
  cases h : ops op.crdt_key with
  | none =>
    rw [add_unverified_of_none ops op h, regStep_none]
    exact ⟨if_pos rfl, fun k2 hk2 => if_neg hk2⟩
  | some p =>
    obtain ⟨ts, e⟩ := p
    rw [add_unverified_of_some ops op h, regStep_some]
    by_cases h1 : op.timestamp < ts
    · rw [if_pos h1, if_pos h1]
      exact ⟨h, fun _ _ => rfl⟩
    · rw [if_neg h1, if_neg h1]
      by_cases h2 : op.timestamp = ts ∧ op.op_id.data ≤ e.op_id.data
      · rw [if_pos h2, if_pos h2]
        exact ⟨h, fun _ _ => rfl⟩
      · rw [if_neg h2, if_neg h2]
        exact ⟨if_pos rfl, fun k2 hk2 => if_neg hk2⟩

theorem merge_all_at_key {k : String} (l : List SignedOperation)
    (hk : ∀ o ∈ l, o.crdt_key = k) (ops : LWWMap) :
    merge_all ops l k = l.foldl regStep (ops k) ∧
    ∀ k2, k2 ≠ k → merge_all ops l k2 = ops k2 := by
  induction l generalizing ops with
  | nil => exact ⟨rfl, fun _ _ => rfl⟩
  | cons a t ih =>
    have hak : a.crdt_key = k := hk a (List.mem_cons_self a t)
    have ht : ∀ o ∈ t, o.crdt_key = k := fun o ho => hk o (List.mem_cons_of_mem a ho)
    have step := add_unverified_snd_at ops a
    have ih2 := ih ht (add_operation_unverified ops a).2
    have e1 : (add_operation_unverified ops a).2 k = regStep (ops k) a := by
      rw [← hak]; exact step.1
    constructor
    · show merge_all (add_operation_unverified ops a).2 t k = _
      rw [List.foldl_cons, ih2.1, e1]
    · intro k2 hk2
      show merge_all (add_operation_unverified ops a).2 t k2 = ops k2
      rw [ih2.2 k2 hk2, step.2 k2 (hak ▸ hk2)]

/-- Fold of the single register over a list: the retained operation is
a maximal element under the `(timestamp, op_id)` order. -/
theorem regFold_spec (l : List SignedOperation)
    (hl : l ≠ []) :
    ∃ m ∈ l, l.foldl regStep none = some (m.timestamp, m) ∧
      ∀ o ∈ l, opLe o m := by
  induction l using List.reverseRecOn with
  | nil => exact absurd rfl hl
  | append_singleton t a ih =>
    rcases eq_or_ne t [] with rfl | ht
    · refine ⟨a, List.mem_singleton_self a, ?_, ?_⟩
      · simp [regStep]
      · intro o ho
        rw [List.nil_append, List.mem_singleton] at ho
        exact ho ▸ opLe_refl a
    · obtain ⟨m, hm, hfold, hmax⟩ := ih ht
      rw [List.foldl_append, hfold, List.foldl_cons, List.foldl_nil,
        regStep_some]
      by_cases h1 : a.timestamp < m.timestamp
      · refine ⟨m, List.mem_append_left _ hm, if_pos h1, ?_⟩
        intro o ho
        rcases List.mem_append.mp ho with ho | ho
        · exact hmax o ho
        · rw [List.mem_singleton] at ho
          exact ho ▸ Or.inl h1
      · rw [if_neg h1]
        by_cases h2 : a.timestamp = m.timestamp ∧ a.op_id.data ≤ m.op_id.data
        · refine ⟨m, List.mem_append_left _ hm, if_pos h2, ?_⟩
          intro o ho
          rcases List.mem_append.mp ho with ho | ho
          · exact hmax o ho
          · rw [List.mem_singleton] at ho
            exact ho ▸ Or.inr h2
        · have hma : opLe m a := by
            rcases lt_or_eq_of_le (not_lt.mp h1) with h | h
            · exact Or.inl h
            · refine Or.inr ⟨h, ?_⟩
              rcases le_total a.op_id.data m.op_id.data with h3 | h3
              · exact absurd ⟨h.symm, h3⟩ h2
              · exact h3
          refine ⟨a, List.mem_append_right _ (List.mem_singleton_self a),
            if_neg h2, ?_⟩
          intro o ho
          rcases List.mem_append.mp ho with ho | ho
          · exact opLe_trans (hmax o ho) hma
          · rw [List.mem_singleton] at ho
            exact ho ▸ opLe_refl a

/-- Maximal elements are unique when `(timestamp, op_id)` pairs are
pairwise distinct in the list. -/
theorem max_unique {l : List SignedOperation}
    (hd : (l.map fun o => (o.timestamp, o.op_id)).Nodup)
    {m1 m2 : SignedOperation} (h1 : m1 ∈ l) (h2 : m2 ∈ l)
    (hmax1 : ∀ o ∈ l, opLe o m1) (hmax2 : ∀ o ∈ l, opLe o m2) :
    m1 = m2 := by
  have h12 : opLe m1 m2 := hmax2 m1 h1
  have h21 : opLe m2 m1 := hmax1 m2 h2
  have hts : m1.timestamp = m2.timestamp := by
    rcases h12 with h | ⟨h, _⟩
    · rcases h21 with h2a | ⟨h2a, _⟩
      · exact absurd (h.trans h2a) (lt_irrefl _)
      · exact h2a.symm
    · exact h
  have hid : m1.op_id = m2.op_id := by
    rcases h12 with h | ⟨_, hle1⟩
    · exact absurd (hts ▸ h) (lt_irrefl _)
    · rcases h21 with h | ⟨_, hle2⟩
      · exact absurd (hts ▸ h) (lt_irrefl _)
      · exact String.toList_inj.mp (le_antisymm hle1 hle2)
  exact List.inj_on_of_nodup_map hd h1 h2 (by rw [hts, hid])

theorem emptyLWW_apply (k : String) : emptyLWW k = none := rfl

/-- Merging the same multiset of single-key operations in two orders
gives the same map, holding exactly the lexicographically maximal
operation. -/
theorem merge_all_perm_key {k : String} {l1 l2 : List SignedOperation}
    (hp : l1.Perm l2) (hk1 : ∀ o ∈ l1, o.crdt_key = k)
    (hd : (l1.map fun o => (o.timestamp, o.op_id)).Nodup) :
    merge_all emptyLWW l1 = merge_all emptyLWW l2 ∧
    (l1 ≠ [] → ∃ m ∈ l1, merge_all emptyLWW l1 k = some (m.timestamp, m) ∧
      ∀ o ∈ l1, opLe o m) := by
  have hk2 : ∀ o ∈ l2, o.crdt_key = k := fun o ho => hk1 o (hp.mem_iff.mpr ho)
  have e1 := merge_all_at_key l1 hk1 emptyLWW
  have e2 := merge_all_at_key l2 hk2 emptyLWW
  rcases eq_or_ne l1 [] with rfl | h1
  · have h2 : l2 = [] := List.perm_nil.mp hp.symm
    subst h2
    exact ⟨rfl, fun h => absurd rfl h⟩
  · have h2 : l2 ≠ [] := fun h => h1 (List.perm_nil.mp (h ▸ hp))
    obtain ⟨m1, hm1, hf1, hmax1⟩ := regFold_spec l1 h1
    obtain ⟨m2, hm2, hf2, hmax2⟩ := regFold_spec l2 h2
    have hm2' : m2 ∈ l1 := hp.mem_iff.mpr hm2
    have hmax2' : ∀ o ∈ l1, opLe o m2 := fun o ho => hmax2 o (hp.mem_iff.mp ho)
    have hmm : m1 = m2 := max_unique hd hm1 hm2' hmax1 hmax2'
    constructor
    · funext k2
      by_cases hk : k2 = k
      · subst hk
        rw [e1.1, e2.1, emptyLWW_apply, hf1, hf2, hmm]
      · rw [e1.2 k2 hk, e2.2 k2 hk]
    · intro _
      refine ⟨m1, hm1, ?_, hmax1⟩
      rw [e1.1, emptyLWW_apply, hf1]

theorem add_operation_of_ok (sv : SigVerifier) (ops : LWWMap)
    (op : SignedOperation) (h : op.verify sv = .ok true) :
    add_operation sv ops op = add_operation_unverified ops op := by
  unfold add_operation
  rw [h]

theorem add_operation_of_not_ok (sv : SigVerifier) (ops : LWWMap)
    (op : SignedOperation) (h : op.verify sv ≠ .ok true) :
    add_operation sv ops op = (false, ops) := by
  unfold add_operation
  cases hv : op.verify sv with
  | ok b =>
    cases b with
    | true => exact absurd hv h
    | false => rfl
  | error e => rfl

theorem verify_eq_ok_true_iff (sv : SigVerifier) (op : SignedOperation) :
    op.verify sv = .ok true ↔
      (sv op.public_key op.full_message op.signature = .ok true ∨
       sv op.public_key op.short_message op.signature = .ok true) := by
  unfold SignedOperation.verify
  cases hf : sv op.public_key op.full_message op.signature with
  | ok b => cases b with
    | false => simp
    | true => simp
  | error e => simp

/-- C1. The LWW merge of the sync store accepts an incoming operation
`o` against an existing entry `(ts, e)` at the same CRDT key iff
`ts < o.timestamp`, or the timestamps are equal and `e.op_id < o.op_id`
(lexicographic String order); `add_operation` applies the same rule
whenever the signature verifies. Consequently a multiset of operations
over one CRDT key with pairwise-distinct `(timestamp, op_id)` pairs,
merged in any order into two empty stores, leaves both stores equal,
holding exactly the operation maximal under `(timestamp, op_id)`. -/
theorem c1_lww_merge_accepts_iff_and_converges :
    (∀ (ops : LWWMap) (o : SignedOperation) (ts : Int) (e : SignedOperation),
      ops o.crdt_key = some (ts, e) →
      (((add_operation_unverified ops o).1 = true ↔
        (ts < o.timestamp ∨ (o.timestamp = ts ∧ e.op_id.data < o.op_id.data))) ∧
       (∀ sv : SigVerifier, o.verify sv = .ok true →
        add_operation sv ops o = add_operation_unverified ops o))) ∧
    (∀ (k : String) (l1 l2 : List SignedOperation), l1.Perm l2 →
      (∀ o ∈ l1, o.crdt_key = k) →
      ((l1.map fun o => (o.timestamp, o.op_id)).Nodup) →
      merge_all emptyLWW l1 = merge_all emptyLWW l2 ∧
      (l1 ≠ [] → ∃ m ∈ l1, merge_all emptyLWW l1 k = some (m.timestamp, m) ∧
        ∀ o ∈ l1, opLe o m)) := by
  constructor
  · intro ops o ts e hsome
    constructor
    · rw [add_unverified_of_some ops o hsome]
      by_cases h1 : o.timestamp < ts
      · rw [if_pos h1]
        simp only [Bool.false_eq_true, false_iff]
        rintro (h | ⟨heq, _⟩)
        · exact absurd (h1.trans h) (lt_irrefl _)
        · exact absurd h1 (not_lt.mpr (le_of_eq heq.symm))
      · rw [if_neg h1]
        by_cases h2 : o.timestamp = ts ∧ o.op_id.data ≤ e.op_id.data
        · rw [if_pos h2]
          simp only [Bool.false_eq_true, false_iff]
          rintro (h | ⟨_, hlt⟩)
          · exact absurd h (not_lt.mpr (le_of_eq h2.1))
          · exact absurd hlt (not_lt.mpr h2.2)
        · rw [if_neg h2]
          simp only [true_iff]
          rcases lt_or_eq_of_le (not_lt.mp h1) with h | h
          · exact Or.inl h
          · refine Or.inr ⟨h.symm, ?_⟩
            rcases le_or_lt o.op_id.data e.op_id.data with h3 | h3
            · exact absurd ⟨h.symm, h3⟩ h2
            · exact h3
    · intro sv hv
      rw [add_operation_of_ok sv ops o hv]
  · intro k l1 l2 hp hk1 hd
    exact merge_all_perm_key hp hk1 hd

/-- Witness for C1 at a concrete two-element multiset. -/
theorem c1_witness :
    merge_all emptyLWW [demoOp, demoOp2] = merge_all emptyLWW [demoOp2, demoOp] ∧
    ([demoOp, demoOp2] ≠ [] → ∃ m ∈ [demoOp, demoOp2],
      merge_all emptyLWW [demoOp, demoOp2] "db:k" = some (m.timestamp, m) ∧
      ∀ o ∈ [demoOp, demoOp2], opLe o m) :=
  c1_lww_merge_accepts_iff_and_converges.2 "db:k" [demoOp, demoOp2]
    [demoOp2, demoOp] (by decide) (by decide) (by decide)

/-- C2. An operation whose signature verifies under neither the full
message format nor the short format is rejected by `add_operation`
with the LWW map unchanged; if either format verifies, the operation
is processed exactly by the LWW merge rule. -/
theorem c2_signature_discipline :
    ∀ (sv : SigVerifier) (ops : LWWMap) (op : SignedOperation),
      (sv op.public_key op.full_message op.signature ≠ .ok true →
       sv op.public_key op.short_message op.signature ≠ .ok true →
       add_operation sv ops op = (false, ops)) ∧
      ((sv op.public_key op.full_message op.signature = .ok true ∨
        sv op.public_key op.short_message op.signature = .ok true) →
       add_operation sv ops op = add_operation_unverified ops op) := by
  intro sv ops op
  constructor
  · intro hf hs
    refine add_operation_of_not_ok sv ops op ?_
    intro hv
    rcases (verify_eq_ok_true_iff sv op).mp hv with h | h
    · exact hf h
    · exact hs h
  · intro h
    exact add_operation_of_ok sv ops op ((verify_eq_ok_true_iff sv op).mpr h)

/-- Witness for C2: under an oracle failing both formats, the
operation is rejected and the map is unchanged. -/
theorem c2_witness :
    add_operation rejectAllSig emptyLWW demoOp = (false, emptyLWW) :=
  (c2_signature_discipline rejectAllSig emptyLWW demoOp).1
    (by decide) (by decide)

theorem respond_operations (ops0 : List SignedOperation) :
    (respond ops0).operations =
      (List.insertionSort opLe ops0).take MAX_OPS_PER_RESPONSE := rfl

theorem respond_has_more (ops0 : List SignedOperation) :
    (respond ops0).has_more =
      decide (((List.insertionSort opLe ops0).take MAX_OPS_PER_RESPONSE).length
        < (List.insertionSort opLe ops0).length) := rfl

theorem respond_token (ops0 : List SignedOperation) :
    (respond ops0).continuation_token =
      if (respond ops0).has_more then
        some ("ts:" ++ int_decimal_str
          (((((List.insertionSort opLe ops0).take
            MAX_OPS_PER_RESPONSE).getLast?).map (fun op => op.timestamp)).getD 0))
      else none := rfl

/-- Full behaviour of the response builder on its collected input. -/
theorem respond_spec (ops0 : List SignedOperation) :
    (respond ops0).operations.length ≤ 128 ∧
    List.Sorted opLe (respond ops0).operations ∧
    (∃ l, l.Perm ops0 ∧ List.Sorted opLe l ∧ (respond ops0).operations <+: l) ∧
    ((respond ops0).has_more = true ↔
      (respond ops0).operations.length < ops0.length) ∧
    ((respond ops0).has_more = true →
      ∃ last, (respond ops0).operations.getLast? = some last ∧
        (respond ops0).continuation_token =
          some ("ts:" ++ int_decimal_str last.timestamp)) ∧
    ((respond ops0).has_more = false →
      (respond ops0).continuation_token = none) := by
  have hlenS : (List.insertionSort opLe ops0).length = ops0.length :=
    List.length_insertionSort opLe ops0
  have hmore : (respond ops0).has_more = true ↔
      (respond ops0).operations.length < ops0.length := by
    rw [respond_has_more, respond_operations, decide_eq_true_eq, hlenS]
  refine ⟨?_, ?_, ?_, hmore, ?_, ?_⟩
  · rw [respond_operations]
    exact List.length_take_le _ _
  · rw [respond_operations]
    exact List.Pairwise.sublist (List.take_sublist _ _)
      (List.sorted_insertionSort opLe ops0)
  · exact ⟨List.insertionSort opLe ops0, List.perm_insertionSort opLe ops0,
      List.sorted_insertionSort opLe ops0,
      respond_operations ops0 ▸ List.take_prefix _ _⟩
  · intro h
    have hlt : (respond ops0).operations.length < ops0.length := hmore.mp h
    have hSne : List.insertionSort opLe ops0 ≠ [] := by
      intro hnil
      rw [respond_operations, hnil, List.take_nil] at hlt
      rw [← hlenS, hnil] at hlt
      exact absurd hlt (by simp)
    have hcne : (respond ops0).operations ≠ [] := by
      rw [respond_operations]
      intro hnil
      rcases List.take_eq_nil_iff.mp hnil with h0 | h0
      · exact absurd h0 (by decide)
      · exact absurd h0 hSne
    obtain ⟨last, hlast⟩ := Option.isSome_iff_exists.mp
      (Option.isSome_iff_ne_none.mpr
        (mt List.getLast?_eq_none_iff.mp hcne))
    refine ⟨last, hlast, ?_⟩
    rw [respond_operations] at hlast
    rw [respond_token, if_pos h, hlast]
    rfl
  · intro h
    rw [respond_token, h]
    simp

/-- The request handler is the response builder on the considered
operations. -/
theorem handle_sync_request_eq (stored : List SignedOperation)
    (since : Option Int) :
    handle_sync_request stored since = respond (sync_considered stored since) := by
  cases since <;> rfl

/-- C3. For every sync request: the considered operations are all
stored ones when `since_timestamp` is absent, else exactly those with
`timestamp ≥ since_timestamp` (this is `sync_considered`); the
response chunk is a prefix of a `(timestamp, op_id)`-sorted
permutation of them, carries at most 128 operations and is itself
sorted; `has_more` holds iff the considered total exceeds the chunk
length; and the continuation token is `ts:` followed by the timestamp
of the last chunk operation exactly when `has_more`, else absent. -/
theorem c3_sync_request_chunking :
    ∀ (stored : List SignedOperation) (since : Option Int),
      (handle_sync_request stored since).operations.length ≤ 128 ∧
      List.Sorted opLe (handle_sync_request stored since).operations ∧
      (∃ l, l.Perm (sync_considered stored since) ∧ List.Sorted opLe l ∧
        (handle_sync_request stored since).operations <+: l) ∧
      ((handle_sync_request stored since).has_more = true ↔
        (handle_sync_request stored since).operations.length <
          (sync_considered stored since).length) ∧
      ((handle_sync_request stored since).has_more = true →
        ∃ last, (handle_sync_request stored since).operations.getLast?
            = some last ∧
          (handle_sync_request stored since).continuation_token =
            some ("ts:" ++ int_decimal_str last.timestamp)) ∧
      ((handle_sync_request stored since).has_more = false →
        (handle_sync_request stored since).continuation_token = none) := by
  intro stored since
  rw [handle_sync_request_eq]
  exact respond_spec _

/-- Witness for C3 at a concrete store. -/
theorem c3_witness :
    (handle_sync_request [demoOp, demoOp2] none).operations.length ≤ 128 :=
  (c3_sync_request_chunking [demoOp, demoOp2] none).1

theorem nat_decimal_aux_succ (fuel n : Nat) (acc : List Char) :
    nat_decimal_aux (fuel + 1) n acc =
      if n < 10 then dec_char (n % 10) :: acc
      else nat_decimal_aux fuel (n / 10) (dec_char (n % 10) :: acc) := rfl

theorem dec_digit?_dec_char {d : Nat} (hd : d < 10) :
    dec_digit? (dec_char d) = some d := by
  interval_cases d <;> decide

theorem dec_char_ne_minus {d : Nat} (hd : d < 10) : dec_char d ≠ '-' := by
  interval_cases d <;> decide

/-- Folding the parser over printed digits accumulates the printed
value (with a positional weight for the prefix accumulator). -/
theorem nat_decimal_aux_fold (fuel : Nat) : ∀ n acc, n < 10 ^ fuel →
    ∃ p, 0 < p ∧ ∀ a : Nat,
      (nat_decimal_aux fuel n acc).foldl dec_step (some a) =
        acc.foldl dec_step (some (a * p + n)) := by
  induction fuel with
  | zero =>
    intro n acc h
    have hn : n = 0 := Nat.lt_one_iff.mp (by simpa using h)
    exact ⟨1, Nat.one_pos, fun a => by simp [nat_decimal_aux, hn]⟩
  | succ fuel ih =>
    intro n acc h
    by_cases hn : n < 10
    · refine ⟨10, by norm_num, fun a => ?_⟩
      rw [nat_decimal_aux_succ, if_pos hn, List.foldl_cons]
      have hd : dec_step (some a) (dec_char (n % 10)) = some (a * 10 + n) := by
        unfold dec_step
        rw [dec_digit?_dec_char (Nat.mod_lt n (by norm_num)), Nat.mod_eq_of_lt hn]
      rw [hd]
    · rw [nat_decimal_aux_succ, if_neg hn]
      have h10 : n / 10 < 10 ^ fuel := by
        rw [Nat.div_lt_iff_lt_mul (by norm_num : 0 < 10)]
        calc n < 10 ^ (fuel + 1) := h
          _ = 10 ^ fuel * 10 := by rw [pow_succ]
      obtain ⟨p, hp, hfold⟩ := ih (n / 10) (dec_char (n % 10) :: acc) h10
      refine ⟨p * 10, Nat.mul_pos hp (by norm_num), fun a => ?_⟩
      rw [hfold a, List.foldl_cons]
      have hd : dec_step (some (a * p + n / 10)) (dec_char (n % 10)) =
          some (a * (p * 10) + n) := by
        unfold dec_step
        rw [dec_digit?_dec_char (Nat.mod_lt n (by norm_num))]
        have heq : (a * p + n / 10) * 10 + n % 10 = a * (p * 10) + n := by
          have hdm : n / 10 * 10 + n % 10 = n := by omega
          calc (a * p + n / 10) * 10 + n % 10
              = a * (p * 10) + (n / 10 * 10 + n % 10) := by ring
            _ = a * (p * 10) + n := by rw [hdm]
        exact congrArg some heq
      rw [hd]

theorem nat_decimal_aux_ne_nil (fuel : Nat) : ∀ n (acc : List Char),
    acc ≠ [] → nat_decimal_aux fuel n acc ≠ [] := by
  induction fuel with
  | zero => intro n acc h; exact h
  | succ fuel ih =>
    intro n acc _
    rw [nat_decimal_aux_succ]
    by_cases hn : n < 10
    · rw [if_pos hn]; exact List.cons_ne_nil _ _
    · rw [if_neg hn]; exact ih _ _ (List.cons_ne_nil _ _)

theorem nat_decimal_ne_nil (n : Nat) : nat_decimal n ≠ [] := by
  unfold nat_decimal
  rw [nat_decimal_aux_succ]
  by_cases hn : n < 10
  · rw [if_pos hn]; exact List.cons_ne_nil _ _
  · rw [if_neg hn]; exact nat_decimal_aux_ne_nil _ _ _ (List.cons_ne_nil _ _)

theorem decimal_to_nat?_of_ne_nil {l : List Char} (h : l ≠ []) :
    decimal_to_nat? l = l.foldl dec_step (some 0) := by
  cases l with
  | nil => exact absurd rfl h
  | cons c t => rfl

/-- Printing then parsing an unsigned decimal is the identity. -/
theorem decimal_to_nat?_nat_decimal (n : Nat) :
    decimal_to_nat? (nat_decimal n) = some n := by
  have hlt : n < 10 ^ (n + 1) :=
    lt_of_lt_of_le (Nat.lt_two_pow n)
      (Nat.pow_le_pow_left (by norm_num) _) |>.trans_le
      (Nat.pow_le_pow_right (by norm_num) (Nat.le_succ n))
  obtain ⟨p, _, hfold⟩ := nat_decimal_aux_fold (n + 1) n [] hlt
  rw [decimal_to_nat?_of_ne_nil (nat_decimal_ne_nil n)]
  unfold nat_decimal
  rw [hfold 0]
  simp

theorem nat_decimal_aux_no_minus (fuel : Nat) : ∀ n (acc : List Char),
    (∀ c ∈ acc, c ≠ '-') → ∀ c ∈ nat_decimal_aux fuel n acc, c ≠ '-' := by
  induction fuel with
  | zero => intro n acc h; exact h
  | succ fuel ih =>
    intro n acc hacc
    have hacc2 : ∀ c ∈ dec_char (n % 10) :: acc, c ≠ '-' := by
      intro c hc
      rcases List.mem_cons.mp hc with rfl | hc
      · exact dec_char_ne_minus (Nat.mod_lt n (by norm_num))
      · exact hacc c hc
    rw [nat_decimal_aux_succ]
    by_cases hn : n < 10
    · rw [if_pos hn]; exact hacc2
    · rw [if_neg hn]; exact ih _ _ hacc2

theorem nat_decimal_no_minus (n : Nat) : ∀ c ∈ nat_decimal n, c ≠ '-' := by
  unfold nat_decimal
  rw [nat_decimal_aux_succ]
  by_cases hn : n < 10
  · rw [if_pos hn]
    intro c hc
    rcases List.mem_cons.mp hc with rfl | hc
    · exact dec_char_ne_minus (Nat.mod_lt n (by norm_num))
    · exact absurd hc (List.not_mem_nil c)
  · rw [if_neg hn]
    refine nat_decimal_aux_no_minus _ _ _ ?_
    intro c hc
    rcases List.mem_cons.mp hc with rfl | hc
    · exact dec_char_ne_minus (Nat.mod_lt n (by norm_num))
    · exact absurd hc (List.not_mem_nil c)

theorem int_parse?_cons (c : Char) (rest : List Char) :
    int_parse? (c :: rest) =
      if c = '-' then (decimal_to_nat? rest).map (fun n => -(n : Int))
      else (decimal_to_nat? (c :: rest)).map (fun n => (n : Int)) := rfl

/-- Printing then parsing an i64 is the identity. -/
theorem int_parse?_int_decimal (i : Int) : int_parse? (int_decimal i) = some i := by
  by_cases hi : i < 0
  · unfold int_decimal
    rw [if_pos hi, int_parse?_cons, if_pos rfl, decimal_to_nat?_nat_decimal]
    exact congrArg some (show -((i.natAbs : Nat) : Int) = i by omega)
  · unfold int_decimal
    rw [if_neg hi]
    cases hl : nat_decimal i.toNat with
    | nil => exact absurd hl (nat_decimal_ne_nil _)
    | cons c t =>
      have hcm : c ≠ '-' :=
        nat_decimal_no_minus i.toNat c (by rw [hl]; exact List.mem_cons_self c t)
      rw [int_parse?_cons, if_neg hcm, ← hl, decimal_to_nat?_nat_decimal]
      exact congrArg some (show ((i.toNat : Nat) : Int) = i by omega)

/-- Round trip of the continuation token through print and parse. -/
theorem parse_ts_token_roundtrip (n : Int) :
    parse_ts_token ("ts:" ++ int_decimal_str n) = some n := by
  have he : parse_ts_token ("ts:" ++ int_decimal_str n) =
      int_parse? (int_decimal n) := rfl
  rw [he, int_parse?_int_decimal]

set_option maxRecDepth 10000 in
/-- Counterexample to C4 as stated: with 129 stored operations (so
ceil(129 / 128) = 2), the catch-up loop has not reached a response
with `has_more = false` after 2 rounds — the `ts:` cursor equals the
shared timestamp, the `timestamp ≥ cursor` filter re-selects all 129
operations, and the loop never progresses. -/
theorem c4_counterexample :
    c4_store.length = 129 ∧ (129 + 127) / 128 = 2 ∧
    sync_rounds_done c4_store none 2 = false := by
  refine ⟨by decide, by decide, by decide⟩

theorem sync_rounds_done_succ (stored : List SignedOperation)
    (since : Option Int) (k : Nat) :
    sync_rounds_done stored since (k + 1) =
      if (handle_sync_request stored since).has_more then
        match (handle_sync_request stored since).continuation_token with
        | some tok =>
          match parse_ts_token tok with
          | some n => sync_rounds_done stored (some n) k
          | none => false
        | none => false
      else true := rfl

/-- A round whose considered set fits in one chunk ends the loop. -/
theorem has_more_false_of_le {stored : List SignedOperation}
    {since : Option Int}
    (hle : (sync_considered stored since).length ≤ 128) :
    (handle_sync_request stored since).has_more = false := by
  have hiff := (respond_spec (sync_considered stored since)).2.2.2.1
  rw [← handle_sync_request_eq] at hiff
  cases hb : (handle_sync_request stored since).has_more
  · rfl
  · exfalso
    have hlt := hiff.mp hb
    have hops : (handle_sync_request stored since).operations.length =
        min MAX_OPS_PER_RESPONSE (sync_considered stored since).length := by
      rw [handle_sync_request_eq, respond_operations, List.length_take,
        List.length_insertionSort]
    have h128 : MAX_OPS_PER_RESPONSE = 128 := rfl
    rw [hops, h128] at hlt
    omega

/-- Distinctness of timestamps transfers to any considered set. -/
theorem considered_ts_nodup {stored : List SignedOperation}
    (hnd : (stored.map (fun o => o.timestamp)).Nodup) (since : Option Int) :
    ((sync_considered stored since).map (fun o => o.timestamp)).Nodup := by
  cases since with
  | none => exact hnd
  | some ts =>
    exact List.Nodup.sublist
      (List.Sublist.map _ (List.filter_sublist stored)) hnd

/-- One chunked round on a considered set larger than a chunk: the
response asks for more, its token carries the timestamp of the 128th
sorted operation, and — timestamps being pairwise distinct — the next
considered set is exactly 127 operations smaller. -/
theorem sync_chunk_step {stored : List SignedOperation}
    (hnd : (stored.map (fun o => o.timestamp)).Nodup) (since : Option Int)
    (hbig : 128 < (sync_considered stored since).length) :
    ∃ n : Int,
      (handle_sync_request stored since).has_more = true ∧
      (handle_sync_request stored since).continuation_token =
        some ("ts:" ++ int_decimal_str n) ∧
      (sync_considered stored (some n)).length + 127 =
        (sync_considered stored since).length := by
  have h128 : MAX_OPS_PER_RESPONSE = 128 := rfl
  set C := sync_considered stored since with hC
  set S := List.insertionSort opLe C with hS
  have hperm : S.Perm C := List.perm_insertionSort opLe C
  have hsorted : List.Sorted opLe S := List.sorted_insertionSort opLe C
  have hSlen : S.length = C.length := hperm.length_eq
  have hbig' : 128 < S.length := by omega
  have hresp := handle_sync_request_eq stored since
  have hmoreR : (respond C).has_more = true := by
    rw [respond_has_more]
    refine decide_eq_true ?_
    rw [List.length_take, List.length_insertionSort]
    rw [min_eq_left (by rw [h128]; omega)]
    rw [h128]
    omega
  -- decompose the sorted list at position 127
  have hdlen : (S.drop 127).length = S.length - 127 := List.length_drop 127 S
  have hdne : S.drop 127 ≠ [] := by
    intro hnil
    rw [hnil] at hdlen
    simp at hdlen
    omega
  obtain ⟨d, D', hD⟩ : ∃ d D', S.drop 127 = d :: D' := by
    cases hdrop : S.drop 127 with
    | nil => exact absurd hdrop hdne
    | cons d D' => exact ⟨d, D', rfl⟩
  have hget : S[127]? = some d := by
    have := List.getElem?_drop S 127 0
    rw [hD] at this
    simpa using this.symm
  have hchunkEq : S.take MAX_OPS_PER_RESPONSE = S.take 127 ++ [d] := by
    rw [h128, show (128 : Nat) = 127 + 1 from rfl, List.take_succ, hget]
    rfl
  have hsplit : S.take 127 ++ d :: D' = S := by
    rw [← hD]
    exact List.take_append_drop 127 S
  -- the token carries d.timestamp
  refine ⟨d.timestamp, ?_, ?_, ?_⟩
  · rw [hresp]; exact hmoreR
  · rw [hresp, respond_token, if_pos hmoreR, ← hS, hchunkEq,
      List.getLast?_concat]
    rfl
  · -- counting the next considered set
    set p : SignedOperation → Bool := fun o => decide (d.timestamp ≤ o.timestamp)
      with hp
    have hmemd : d ∈ S := by
      rw [← hsplit]
      exact List.mem_append_right _ (List.mem_cons_self d D')
    -- pairwise facts on the decomposition
    have hpw : ∀ a ∈ S.take 127, ∀ b ∈ d :: D', opLe a b := by
      have := hsorted
      rw [← hsplit] at this
      exact (List.pairwise_append.mp this).2.2
    have hsorted2 : List.Sorted opLe (d :: D') := by
      have := hsorted
      rw [← hsplit] at this
      exact (List.pairwise_append.mp this).2.1
    -- timestamps in the prefix differ from d.timestamp
    have hnodS : (S.map (fun o => o.timestamp)).Nodup := by
      have hnodC := considered_ts_nodup hnd since
      exact ((hperm.map (fun o => o.timestamp)).nodup_iff).mpr hnodC
    have hdisj : ∀ a ∈ S.take 127, a.timestamp ≠ d.timestamp := by
      intro a ha hts
      have := hnodS
      rw [← hsplit, List.map_append] at this
      have hdj := (List.nodup_append.mp this).2.2
      exact hdj (List.mem_map_of_mem _ ha)
        (hts ▸ List.mem_map_of_mem _ (List.mem_cons_self d D'))
    -- every prefix element is strictly older
    have hpre : ∀ a ∈ S.take 127, ¬ (p a = true) := by
      intro a ha
      have hle := hpw a ha d (List.mem_cons_self d D')
      have hne := hdisj a ha
      rcases hle with hlt | ⟨heq, _⟩
      · simp only [hp, decide_eq_true_eq]
        omega
      · exact absurd heq hne
    -- every suffix element is at least as new
    have hsuf : ∀ b ∈ d :: D', p b = true := by
      intro b hb
      rcases List.mem_cons.mp hb with rfl | hb
      · simp [hp]
      · have := List.rel_of_sorted_cons hsorted2 b hb
        rcases this with hlt | ⟨heq, _⟩
        · simp only [hp, decide_eq_true_eq]
          omega
        · simp only [hp, decide_eq_true_eq]
          omega
    -- count over the sorted list
    have hcountS : S.countP p = S.length - 127 := by
      have htakelen : (S.take 127).length = 127 := by
        rw [List.length_take]
        exact min_eq_left (by omega)
      have hlenS : 127 + (d :: D').length = S.length := by
        have hc := congrArg List.length hsplit
        rw [List.length_append, htakelen] at hc
        exact hc
      calc S.countP p = (S.take 127 ++ d :: D').countP p := by rw [hsplit]
        _ = (S.take 127).countP p + (d :: D').countP p := by
              rw [List.countP_append]
        _ = 0 + (d :: D').length := by
              rw [List.countP_eq_zero.mpr hpre, List.countP_eq_length.mpr hsuf]
        _ = S.length - 127 := by omega
    -- count over the considered set, then over the whole store
    have hcountC : C.countP p = S.length - 127 := by
      rw [← hperm.countP_eq p, hcountS]
    have hstored : stored.countP p = C.countP p := by
      cases hsince : since with
      | none => rw [hC, hsince]; rfl
      | some s =>
        have hdmem : d ∈ C := hperm.mem_iff.mp hmemd
        have hsd : s ≤ d.timestamp := by
          rw [hC, hsince] at hdmem
          have := (List.mem_filter.mp hdmem).2
          simpa using this
        rw [hC, hsince]
        show stored.countP p =
          (stored.filter (fun o => decide (s ≤ o.timestamp))).countP p
        rw [List.countP_filter]
        refine List.countP_congr ?_
        intro a _
        by_cases hpa : d.timestamp ≤ a.timestamp
        · have hsa : s ≤ a.timestamp := le_trans hsd hpa
          simp [hp, hpa, hsa]
        · simp [hp, hpa]
    have hfinal : (sync_considered stored (some d.timestamp)).length =
        stored.countP p := by
      show (stored.filter p).length = stored.countP p
      rw [List.countP_eq_length_filter]
    rw [hfinal, hstored, hcountC]
    omega

/-- Enough rounds always finish: if the considered set has at most
`127 * j + 128` operations, `j + 1` rounds reach `has_more = false`. -/
theorem sync_done_of_le {stored : List SignedOperation}
    (hnd : (stored.map (fun o => o.timestamp)).Nodup) :
    ∀ (j : Nat) (since : Option Int),
      (sync_considered stored since).length ≤ 127 * j + 128 →
      sync_rounds_done stored since (j + 1) = true := by
  intro j
  induction j with
  | zero =>
    intro since hle
    rw [sync_rounds_done_succ, has_more_false_of_le (by omega)]
    rfl
  | succ j ih =>
    intro since hle
    by_cases hsmall : (sync_considered stored since).length ≤ 128
    · rw [sync_rounds_done_succ, has_more_false_of_le hsmall]
      rfl
    · obtain ⟨n, hmore, htok, hcount⟩ :=
        sync_chunk_step hnd since (by omega)
      rw [sync_rounds_done_succ, hmore, if_pos rfl, htok]
      show (match parse_ts_token ("ts:" ++ int_decimal_str n) with
        | some n => sync_rounds_done stored (some n) (j + 1)
        | none => false) = true
      rw [parse_ts_token_roundtrip]
      exact ih (some n) (by omega)

/-- C4 (amended). The claimed bound `ceil(total_ops / 128)` fails on
the code (see the counterexample); what holds is: for a fixed server
store whose operations have pairwise-distinct timestamps, the chunked
catch-up loop started with `since_timestamp = None` reaches a response
with `has_more = false` within `max 1 (ceil((total_ops − 1) / 127))`
rounds — each full chunk advances the `ts:` cursor past exactly 127
operations, because the `timestamp ≥ cursor` filter re-includes the
boundary operation. -/
theorem c4_amended_chunked_catchup_terminates :
    ∀ stored : List SignedOperation,
      (stored.map (fun o => o.timestamp)).Nodup →
      sync_rounds_done stored none (max 1 ((stored.length + 125) / 127)) = true := by
  intro stored hnd
  set B := max 1 ((stored.length + 125) / 127) with hB
  have hB1 : 1 ≤ B := le_max_left _ _
  obtain ⟨j, hj⟩ : ∃ j, B = j + 1 := ⟨B - 1, by omega⟩
  rw [hj]
  apply sync_done_of_le hnd
  have hdiv : (stored.length + 125) / 127 ≤ j + 1 := by
    rw [← hj, hB]
    exact le_max_right 1 _
  show stored.length ≤ 127 * j + 128
  omega

/-- Witness for the amended C4 at a concrete single-operation store. -/
theorem c4_amended_witness :
    sync_rounds_done [demoOp] none (max 1 ((List.length [demoOp] + 125) / 127))
      = true :=
  c4_amended_chunked_catchup_terminates [demoOp] (by decide)

theorem string_data_inj {a b : String} (h : a.data = b.data) : a = b := by
  cases a
  cases b
  exact congrArg String.mk (by simpa using h)

theorem isEmpty_false_of_ne_nil {l : List Char} (h : l ≠ []) :
    l.isEmpty = false := by
  cases l with
  | nil => exact absurd rfl h
  | cons a t => rfl

/-- C6. For every non-empty control-character-free name and valid
64-hex public key, the generated db name verifies against that key,
and fails against every other key. -/
theorem c6_db_name_binding :
    ∀ (n pk : String),
      n.data ≠ [] → (∀ c ∈ n.data, is_control_char c = false) →
      pk.data.length = 64 → (∀ c ∈ pk.data, is_hex_digit c = true) →
      verify_db_name_secure (generate_db_name n pk) pk = true ∧
      (∀ pk2 : String, pk2 ≠ pk →
        verify_db_name_secure (generate_db_name n pk) pk2 = false) := by
  intro n pk hne hctl hlen hhex
  have hdb : (generate_db_name n pk).data = n.data ++ '-' :: pk.data := by
    show (n ++ "-" ++ pk).data = _
    rw [String.data_append, String.data_append, List.append_assoc]
    rfl
  have hpkne : pk.data ≠ [] := by
    intro h
    rw [h] at hlen
    exact absurd hlen (by decide)
  have hdbne : (generate_db_name n pk).data ≠ [] := by
    rw [hdb]
    intro h
    exact List.cons_ne_nil _ _ (List.append_eq_nil.mp h).2
  constructor
  · -- positive direction
    have h1 : ¬ ((generate_db_name n pk).data.isEmpty = true ∨
        pk.data.isEmpty = true) := by
      rw [isEmpty_false_of_ne_nil hdbne, isEmpty_false_of_ne_nil hpkne]
      rintro (h | h) <;> exact Bool.false_ne_true h
    have h2 : ¬ pk.data.length ≠ ED25519_PUBLIC_KEY_LENGTH * 2 := by
      rw [hlen]
      exact fun h => h rfl
    have hdec : secure_hex_decode pk = some (hex_pairs pk.data) := by
      unfold secure_hex_decode
      rw [isEmpty_false_of_ne_nil hpkne]
      rw [if_neg (by exact Bool.false_ne_true), if_neg (by rw [hlen]; decide),
        if_pos (List.all_eq_true.mpr hhex)]
    have h3 : ¬ ((secure_hex_decode pk).isNone = true) := by
      rw [hdec]
      exact fun h => by cases h
    have hsuf : (("-" ++ pk).data).isSuffixOf (generate_db_name n pk).data
        = true := by
      rw [List.isSuffixOf_iff_suffix, String.data_append, hdb]
      show ('-' :: pk.data) <:+ _
      exact List.suffix_append _ _
    have h4 : ¬ ¬ ((("-" ++ pk).data).isSuffixOf
        (generate_db_name n pk).data = true) := fun h => h hsuf
    have hrev : (generate_db_name n pk).data.reverse =
        pk.data.reverse ++ '-' :: n.data.reverse := by
      rw [hdb, List.reverse_append, List.reverse_cons, List.append_assoc]
      rfl
    have hdropnil : pk.data.reverse.dropWhile (fun c => c ≠ '-') = [] := by
      rw [List.dropWhile_eq_nil_iff]
      intro c hc
      have hcm : c ∈ pk.data := List.mem_reverse.mp hc
      have := hhex c hcm
      simp only [decide_eq_true_eq]
      intro hcon
      rw [hcon] at this
      exact absurd this (by decide)
    have hdrop : ((generate_db_name n pk).data.reverse).dropWhile
        (fun c => c ≠ '-') = '-' :: n.data.reverse := by
      rw [hrev, List.dropWhile_append, hdropnil]
      simp
    have hmem : '-' ∈ (generate_db_name n pk).data := by
      rw [hdb]
      exact List.mem_append_right _ (List.mem_cons_self _ _)
    have hextract : extract_name_from_db (generate_db_name n pk) =
        some (String.mk n.data) := by
      unfold extract_name_from_db
      rw [if_pos hmem, hdrop]
      simp
    have hany : n.data.any is_control_char = false := by
      cases hh : n.data.any is_control_char
      · rfl
      · obtain ⟨x, hx, hpx⟩ := List.any_eq_true.mp hh
        rw [hctl x hx] at hpx
        exact absurd hpx (by decide)
    have h5' : ¬ (n.data.isEmpty = true ∨
        n.data.any is_control_char = true) := by
      rw [isEmpty_false_of_ne_nil hne, hany]
      rintro (h | h) <;> exact Bool.false_ne_true h
    have h5 : ¬ ((String.mk n.data).data.isEmpty = true ∨
        (String.mk n.data).data.any is_control_char = true) := h5'
    unfold verify_db_name_secure
    rw [if_neg h1, if_neg h2, if_neg h3, if_neg h4, hextract]
    exact if_neg h5
  · -- negative direction: any other key fails
    intro pk2 hne2
    have hd2 : pk2.data ≠ pk.data := fun h => hne2 (string_data_inj h)
    unfold verify_db_name_secure
    by_cases hp2nil : pk2.data = []
    · rw [if_pos (Or.inr (by rw [hp2nil]; rfl))]
    · have h1 : ¬ ((generate_db_name n pk).data.isEmpty = true ∨
          pk2.data.isEmpty = true) := by
        rw [isEmpty_false_of_ne_nil hdbne, isEmpty_false_of_ne_nil hp2nil]
        rintro (h | h) <;> exact Bool.false_ne_true h
      rw [if_neg h1]
      by_cases hlen2 : pk2.data.length = 64
      · rw [if_neg (show ¬ pk2.data.length ≠ ED25519_PUBLIC_KEY_LENGTH * 2
          from by rw [hlen2]; exact fun h => h rfl)]
        by_cases hdec2 : (secure_hex_decode pk2).isNone = true
        · rw [if_pos hdec2]
        · rw [if_neg hdec2]
          have hnosuf : ¬ ((("-" ++ pk2).data).isSuffixOf
              (generate_db_name n pk).data = true) := by
            rw [List.isSuffixOf_iff_suffix, String.data_append, hdb]
            show ¬ ('-' :: pk2.data <:+ n.data ++ '-' :: pk.data)
            intro hsuf
            obtain ⟨t, ht⟩ := hsuf
            have hlent : t.length = n.data.length := by
              have hc := congrArg List.length ht
              rw [List.length_append, List.length_append, List.length_cons,
                List.length_cons, hlen, hlen2] at hc
              omega
            have hinj := List.append_inj ht hlent
            have hcons : '-' :: pk2.data = '-' :: pk.data := hinj.2
            exact hd2 (List.cons.inj hcons).2
          rw [if_pos hnosuf]
      · rw [if_pos (show pk2.data.length ≠ ED25519_PUBLIC_KEY_LENGTH * 2
          from fun h => hlen2 h)]

/-- Witness for C6 at a concrete name and key. -/
theorem c6_witness :
    verify_db_name_secure (generate_db_name "app" demoPk) demoPk = true :=
  (c6_db_name_binding "app" demoPk (by decide) (by decide) (by decide)
    (by decide)).1

/-- Counterexample to C7 as stated: the tolerance is not capped at
3600 s. With tolerance 7200 s and a timestamp 4000 s in the past —
outside the claimed capped window of 3600 s — the code succeeds
instead of failing `TooOld`. -/
theorem c7_counterexample :
    validate_timestamp (-4000000) (some 7200) 0 = .ok () ∧
    (-4000000 : Int) < 0 - 3600 * 1000 := by
  constructor <;> decide

/-- C7 (amended). `validate_timestamp` fails `TooOld` exactly when the
timestamp is below `now` minus the tolerance window (in ms), fails
`TooFuture` exactly when above `now` plus the window, and succeeds
otherwise; the tolerance defaults to 300 s when absent. No maximum is
enforced: whatever tolerance is passed is used as given (the constant
`MAX_TIMESTAMP_TOLERANCE = 3600` exists but no cap is applied), as the
counterexample shows. Stated for tolerances whose millisecond value
fits in an i64, where the source's u64-to-i64 cast is the identity. -/
theorem c7_amended_validate_timestamp :
    ∀ (ts : Int) (tol : Option Nat) (now : Int),
      tol.getD MIN_TIMESTAMP_TOLERANCE * 1000 < 2 ^ 63 →
      (validate_timestamp ts tol now = .error .tooOld ↔
        ts < now - (tol.getD MIN_TIMESTAMP_TOLERANCE * 1000 : Nat)) ∧
      (validate_timestamp ts tol now = .error .tooFuture ↔
        now + (tol.getD MIN_TIMESTAMP_TOLERANCE * 1000 : Nat) < ts) ∧
      (validate_timestamp ts tol now = .ok () ↔
        (now - (tol.getD MIN_TIMESTAMP_TOLERANCE * 1000 : Nat) ≤ ts ∧
         ts ≤ now + (tol.getD MIN_TIMESTAMP_TOLERANCE * 1000 : Nat))) := by
  intro ts tol now h
  have hcast : u64_as_i64 (tol.getD MIN_TIMESTAMP_TOLERANCE * 1000) =
      ((tol.getD MIN_TIMESTAMP_TOLERANCE * 1000 : Nat) : Int) := by
    unfold u64_as_i64
    rw [Nat.mod_eq_of_lt (lt_trans h (by norm_num))]
    rw [if_pos h]
  unfold validate_timestamp
  dsimp only
  rw [hcast]
  by_cases h1 : ts < now - (tol.getD MIN_TIMESTAMP_TOLERANCE * 1000 : Nat)
  · rw [if_pos h1]
    refine ⟨⟨fun _ => h1, fun _ => rfl⟩, ⟨fun hc => ?_, fun hc => ?_⟩,
      ⟨fun hc => ?_, fun hc => ?_⟩⟩
    · cases hc
    · omega
    · cases hc
    · omega
  · rw [if_neg h1]
    by_cases h2 : ts > now + (tol.getD MIN_TIMESTAMP_TOLERANCE * 1000 : Nat)
    · rw [if_pos h2]
      refine ⟨⟨fun hc => ?_, fun hc => ?_⟩, ⟨fun _ => h2, fun _ => rfl⟩,
        ⟨fun hc => ?_, fun hc => ?_⟩⟩
      · cases hc
      · omega
      · cases hc
      · omega
    · rw [if_neg h2]
      refine ⟨⟨fun hc => ?_, fun hc => ?_⟩, ⟨fun hc => ?_, fun hc => ?_⟩,
        ⟨fun _ => ⟨by omega, by omega⟩, fun _ => rfl⟩⟩
      · cases hc
      · omega
      · cases hc
      · omega

/-- Witness for the amended C7 at concrete inputs (default tolerance). -/
theorem c7_witness :
    (validate_timestamp 0 none 0 = .error .tooOld ↔
      (0 : Int) < 0 - ((none : Option Nat).getD MIN_TIMESTAMP_TOLERANCE
        * 1000 : Nat)) ∧
    (validate_timestamp 0 none 0 = .error .tooFuture ↔
      (0 : Int) + ((none : Option Nat).getD MIN_TIMESTAMP_TOLERANCE
        * 1000 : Nat) < 0) ∧
    (validate_timestamp 0 none 0 = .ok () ↔
      ((0 : Int) - ((none : Option Nat).getD MIN_TIMESTAMP_TOLERANCE
        * 1000 : Nat) ≤ 0 ∧
       (0 : Int) ≤ 0 + ((none : Option Nat).getD MIN_TIMESTAMP_TOLERANCE
        * 1000 : Nat))) :=
  c7_amended_validate_timestamp 0 none 0 (by decide)

/-- Counterexample to C5 as stated: on a first failure
(failure_count = 1) the code backs off 2 s — `min(2 << 0, 300)` — not
the claimed `min(2^(1−1), 300) = 1` s. -/
theorem c5_counterexample :
    on_connect_failure (fun _ => none) "peer" 0 "peer" = some (1, 2) ∧
    (2 : Int) ≠ 0 + ((min (2 ^ (1 - 1)) 300 : Nat) : Int) := by
  constructor <;> decide

/-- C5 (amended). On a connect failure the peer's entry becomes
`(failure_count, now + min(2^failure_count, 300) s)` — one doubling
more than the claimed `2^(failure_count − 1)` — stated for failure
counts up to 63, below which the u64 shift cannot wrap; on a
successful connect the entry is cleared. Other peers are untouched. -/
theorem c5_amended_backoff :
    ∀ (pb : PeerBackoff) (peer : String) (now : Int),
      (next_failures pb peer ≤ 63 →
        on_connect_failure pb peer now peer =
          some (next_failures pb peer,
            now + ((min (2 ^ next_failures pb peer) 300 : Nat) : Int))) ∧
      (∀ p, p ≠ peer → on_connect_failure pb peer now p = pb p) ∧
      on_connect_success pb peer peer = none ∧
      (∀ p, p ≠ peer → on_connect_success pb peer p = pb p) := by
  intro pb peer now
  refine ⟨?_, ?_, ?_, ?_⟩
  · intro hle
    have h1 : 1 ≤ next_failures pb peer := by
      unfold next_failures
      cases pb peer with
      | none => exact le_refl 1
      | some e =>
        exact le_min (Nat.succ_le_succ (Nat.zero_le _)) (by norm_num)
    have hshl : u64_checked_shl 2 (next_failures pb peer - 1) =
        some (2 ^ next_failures pb peer) := by
      unfold u64_checked_shl
      rw [if_neg (by omega)]
      congr 1
      have hk : next_failures pb peer - 1 + 1 = next_failures pb peer := by
        omega
      calc (2 <<< (next_failures pb peer - 1)) % 2 ^ 64
          = (2 * 2 ^ (next_failures pb peer - 1)) % 2 ^ 64 := by
            rw [Nat.shiftLeft_eq]
        _ = 2 ^ (next_failures pb peer) % 2 ^ 64 := by
            rw [← pow_succ', hk]
        _ = 2 ^ (next_failures pb peer) :=
            Nat.mod_eq_of_lt (lt_of_le_of_lt
              (Nat.pow_le_pow_right (by norm_num) hle)
              (by norm_num))
    show (if peer = peer then _ else _) = _
    rw [if_pos rfl, hshl]
    rfl
  · intro p hp
    exact if_neg hp
  · exact if_pos rfl
  · intro p hp
    exact if_neg hp

/-- Witness for the amended C5 at a concrete first failure. -/
theorem c5_amended_witness :
    on_connect_failure (fun _ => none) "p" 0 "p" =
      some (next_failures (fun _ => none) "p",
        0 + ((min (2 ^ next_failures (fun _ => none) "p") 300 : Nat) : Int)) :=
  (c5_amended_backoff (fun _ => none) "p" 0).1 (by decide)

/-- C8. `process_announcement` returns false and leaves the registry
untouched for own announcements, for announcement ids cached with an
equal-or-newer timestamp, and for signatures the oracle does not
verify; otherwise it caches the timestamp, upserts the peer with
`last_seen = now`, and returns true exactly when the peer was absent
— so any change to the registry requires a strictly newer timestamp
for that announcement id. -/
theorem c8_process_announcement :
    ∀ (sv : SigVerifier) (reg : PeerRegistry) (a : PeerAnnouncement)
      (now : Int),
      (a.node_id = reg.local_node_id →
        process_announcement sv reg a now = (false, reg)) ∧
      (∀ c, reg.announcement_cache a.id = some c → a.timestamp ≤ c →
        process_announcement sv reg a now = (false, reg)) ∧
      (a.node_id ≠ reg.local_node_id → a.verify sv ≠ .ok true →
        process_announcement sv reg a now = (false, reg)) ∧
      (a.node_id ≠ reg.local_node_id →
        (∀ c, reg.announcement_cache a.id = some c → c < a.timestamp) →
        a.verify sv = .ok true →
        (process_announcement sv reg a now).2.announcement_cache a.id =
          some a.timestamp ∧
        (process_announcement sv reg a now).2.peers a.node_id =
          some (a.to_discovered_peer now) ∧
        ((process_announcement sv reg a now).1 = true ↔
          reg.peers a.node_id = none)) ∧
      ((process_announcement sv reg a now).2 ≠ reg →
        ∀ c, reg.announcement_cache a.id = some c → c < a.timestamp) := by
  intro sv reg a now
  have hcache_true : ∀ c, reg.announcement_cache a.id = some c →
      a.timestamp ≤ c →
      (match reg.announcement_cache a.id with
       | some cached_ts => decide (cached_ts ≥ a.timestamp)
       | none => false) = true := by
    intro c hc hle
    rw [hc]
    exact decide_eq_true hle
  have hsecond : ∀ c, reg.announcement_cache a.id = some c →
      a.timestamp ≤ c → process_announcement sv reg a now = (false, reg) := by
    intro c hc hle
    unfold process_announcement
    by_cases hl : a.node_id = reg.local_node_id
    · rw [if_pos hl]
    · rw [if_neg hl, if_pos (hcache_true c hc hle)]
  refine ⟨?_, hsecond, ?_, ?_, ?_⟩
  · intro hl
    unfold process_announcement
    rw [if_pos hl]
  · intro hl hv
    unfold process_announcement
    rw [if_neg hl]
    by_cases hc : (match reg.announcement_cache a.id with
       | some cached_ts => decide (cached_ts ≥ a.timestamp)
       | none => false) = true
    · rw [if_pos hc]
    · rw [if_neg hc]
      cases hvv : a.verify sv with
      | ok b =>
        cases b with
        | true => exact absurd hvv hv
        | false => rfl
      | error e => rfl
  · intro hl hfresh hv
    have hcfalse : ¬ ((match reg.announcement_cache a.id with
        | some cached_ts => decide (cached_ts ≥ a.timestamp)
        | none => false) = true) := by
      cases hcc : reg.announcement_cache a.id with
      | none => exact fun h => by cases h
      | some c =>
        have := hfresh c hcc
        simp only [decide_eq_true_eq]
        omega
    unfold process_announcement
    rw [if_neg hl, if_neg hcfalse, hv]
    refine ⟨if_pos rfl, ?_, ?_⟩
    · show (if a.node_id = (a.to_discovered_peer now).node_id then _ else _)
        = _
      exact if_pos rfl
    · show ((reg.peers (a.to_discovered_peer now).node_id).isNone = true ↔ _)
      exact Option.isNone_iff_eq_none
  · intro hmod c hc
    by_contra hge
    have hle : a.timestamp ≤ c := by omega
    have := hsecond c hc hle
    rw [this] at hmod
    exact hmod rfl

/-- Witness for C8: a fresh verified announcement updates cache and
peers and reports a new peer. -/
theorem c8_witness :
    (process_announcement acceptAllSig demoRegistry demoAnnouncement 7).2.announcement_cache
        "ann1" = some 5 ∧
    (process_announcement acceptAllSig demoRegistry demoAnnouncement 7).2.peers
        "remote" = some (demoAnnouncement.to_discovered_peer 7) ∧
    ((process_announcement acceptAllSig demoRegistry demoAnnouncement 7).1 = true ↔
      demoRegistry.peers "remote" = none) :=
  (c8_process_announcement acceptAllSig demoRegistry demoAnnouncement 7).2.2.2.1
    (by decide) (fun c hc => by cases hc) (by decide)

/-- C10. A peer with no `last_seen` is expired; in general a peer is
expired exactly when it was never seen or was last seen more than
300 s (300000 ms) before `now`; and `cleanup_expired` removes every
expired peer — in particular every peer without a `last_seen` and
every peer last seen more than 300 s ago. -/
theorem c10_expiry_and_cleanup :
    ∀ (p : DiscoveredPeer) (now : Int),
      (p.last_seen = none → p.is_expired now = true) ∧
      (p.is_expired now = true ↔
        (p.last_seen = none ∨
          ∃ t, p.last_seen = some t ∧ 300 * 1000 < now - t)) ∧
      (∀ (reg : PeerRegistry) (id : String) (q : DiscoveredPeer),
        reg.peers id = some q → q.is_expired now = true →
        (cleanup_expired reg now).peers id = none) := by
  intro p now
  have hPE : ((PEER_EXPIRY_SECS : Int) * 1000) = 300 * 1000 := by decide
  refine ⟨?_, ?_, ?_⟩
  · intro h
    unfold DiscoveredPeer.is_expired
    rw [h]
  · unfold DiscoveredPeer.is_expired
    cases hls : p.last_seen with
    | none => simp
    | some t =>
      simp only [decide_eq_true_eq, hPE]
      constructor
      · intro h
        exact Or.inr ⟨t, rfl, h⟩
      · rintro (h | ⟨t2, ht2, hlt⟩)
        · cases h
        · have ht : t = t2 := Option.some.inj ht2
          omega
  · intro reg id q hq hexp
    show (match reg.peers id with
      | some p2 => if p2.is_expired now then none else some p2
      | none => none) = none
    rw [hq]
    show (if q.is_expired now = true then (none : Option DiscoveredPeer)
      else some q) = none
    rw [hexp]
    rfl

/-- Witness for C10 at a concrete registry holding one stale peer. -/
theorem c10_witness :
    (cleanup_expired
      { peers := fun i =>
          if i = "remote" then some (demoAnnouncement.to_discovered_peer 0)
          else none,
        local_node_id := "loc", announcement_cache := fun _ => none }
      1000000).peers "remote" = none :=
  ((c10_expiry_and_cleanup (demoAnnouncement.to_discovered_peer 0)
      1000000).2.2)
    { peers := fun i =>
        if i = "remote" then some (demoAnnouncement.to_discovered_peer 0)
        else none,
      local_node_id := "loc", announcement_cache := fun _ => none }
    "remote" (demoAnnouncement.to_discovered_peer 0) (by decide) (by decide)

/-- Complete case split of `apply_to_storage` on a not-yet-applied
operation: either the hash-without-field error with the state
untouched, or a successful put followed by marking the op applied. -/
theorem apply_to_storage_cases (st : SyncStoreApply) (op : SignedOperation)
    (ha : st.applied_ops op.op_id = false) :
    (to_lowercase op.store_type = "hash" ∧ op.field = none ∧
      apply_to_storage st op = (.error "Field required for Hash type", st)) ∨
    (∃ k, apply_to_storage st op =
      (.ok (), { storage := storage_put st.storage op.db_name k op.value,
                 applied_ops := fun i => if i = op.op_id then true
                   else st.applied_ops i })) := by
  unfold apply_to_storage
  rw [if_neg (by rw [ha]; exact Bool.false_ne_true)]
  split
  · right
    exact ⟨op.key, rfl⟩
  · rename_i heq
    cases hf : op.field with
    | none =>
      left
      exact ⟨heq, rfl, rfl⟩
    | some f =>
      right
      exact ⟨op.key ++ ":" ++ f, rfl⟩
  · right
    exact ⟨op.key, rfl⟩
  · right
    exact ⟨op.key, rfl⟩

/-- C9. `apply_to_storage` is atomic on error and at most once on
success: a hash operation without a field errors with storage and the
applied set untouched; an already-applied op id returns Ok with the
state untouched; and whenever the applied set changes, the call
succeeded and the storage was written by the corresponding put. -/
theorem c9_apply_to_storage :
    ∀ (st : SyncStoreApply) (op : SignedOperation),
      (to_lowercase op.store_type = "hash" → op.field = none →
        st.applied_ops op.op_id = false →
        apply_to_storage st op = (.error "Field required for Hash type", st)) ∧
      (st.applied_ops op.op_id = true →
        apply_to_storage st op = (.ok (), st)) ∧
      ((apply_to_storage st op).2.applied_ops ≠ st.applied_ops →
        (apply_to_storage st op).1 = .ok () ∧
        ∃ k, (apply_to_storage st op).2.storage =
          storage_put st.storage op.db_name k op.value) := by
  intro st op
  refine ⟨?_, ?_, ?_⟩
  · intro hhash hfield ha
    rcases apply_to_storage_cases st op ha with ⟨_, _, he⟩ | ⟨k, he⟩
    · exact he
    · exfalso
      unfold apply_to_storage at he
      rw [if_neg (by rw [ha]; exact Bool.false_ne_true), hhash, hfield] at he
      exact Except.noConfusion (congrArg Prod.fst he)
  · intro ha
    unfold apply_to_storage
    rw [if_pos ha]
  · intro hmod
    cases ha : st.applied_ops op.op_id with
    | true =>
      exfalso
      unfold apply_to_storage at hmod
      rw [if_pos ha] at hmod
      exact hmod rfl
    | false =>
      rcases apply_to_storage_cases st op ha with ⟨_, _, he⟩ | ⟨k, he⟩
      · exfalso
        rw [he] at hmod
        exact hmod rfl
      · rw [he]
        exact ⟨rfl, k, rfl⟩

/-- Witness for C9: applying a fieldless hash operation to the empty
state errors and leaves the state unchanged. -/
theorem c9_witness :
    apply_to_storage emptyApplyState demoHashOp =
      (.error "Field required for Hash type", emptyApplyState) :=
  (c9_apply_to_storage emptyApplyState demoHashOp).1 (by decide) (by decide)
    (by decide)

end MobileNode
